import Mathlib

/-!
Verification of the templatr-setup planning-and-execution engine.

This file gives a shallow embedding, in Lean 4, of the core of the
`templatr-setup` dependency-installation orchestrator: the Go `filepath`
path normalisation used by the archive extractor, checksum verification,
the plan builder, the installation-state ledger with its undo operations,
and the Unix PATH mutator.  Stateful Go code is embedded as explicit
state passing (the filesystem is modelled as a list of existing paths,
shell-config files as an association list from file name to content);
fallible Go code returns `Except String`.  Theorems at the end of the
file settle the specification claims against these definitions.
-/

namespace Templatr

/-! ## Go `path/filepath` model (Unix rules)

`filepath.Clean`, `filepath.Join` and `filepath.Base` are modelled at the
level of `List Char` (Go operates on bytes; for the ASCII paths involved
the two views agree).  `splitSlash` is the splitting of a path on `'/'`
(the semantics of `strings.Split(path, "/")` restricted to one-character
separators), `interSlash` the inverse joining.
-/

/-- Embedding of Go `strings.HasPrefix s pre`. -/
def strHasPref (s pre : String) : Bool :=
  pre.data.isPrefixOf s.data

/-- Helper used by `splitSlash`: prepend a character to the first group. -/
def consHead (c : Char) : List (List Char) → List (List Char)
  | [] => [[c]]
  | g :: gs => (c :: g) :: gs

/-- Split a character list on `'/'` (semantics of `strings.Split` with
separator `"/"`; the result is always non-empty). -/
def splitSlash : List Char → List (List Char)
  | [] => [[]]
  | c :: cs => if c = '/' then [] :: splitSlash cs else consHead c (splitSlash cs)

/-- Join groups of characters with `'/'` (inverse of `splitSlash`). -/
def interSlash : List (List Char) → List Char
  | [] => []
  | [g] => g
  | g :: g2 :: gs => g ++ '/' :: interSlash (g2 :: gs)

/-- One step of Go `filepath.Clean`'s element processing, operating on a
stack `out` of output components held in reverse order.  Empty and `"."`
components are dropped; `".."` pops a poppable component, is dropped at
the root of a rooted path, and is kept in a relative path that cannot
backtrack further; anything else is pushed. -/
def cleanStep (rooted : Bool) (out : List (List Char)) (c : List Char) : List (List Char) :=
  if c = [] ∨ c = ['.'] then out
  else if c = ['.', '.'] then
    match out with
    | [] => if rooted then [] else [['.', '.']]
    | top :: rest => if top = ['.', '.'] then c :: out else rest
  else c :: out

/-- Element processing of Go `filepath.Clean` on a non-empty path body:
split on the separator, process the components, and reassemble. -/
def cleanCore (rooted : Bool) (l : List Char) : List Char :=
  (if rooted then ['/'] else [])
    ++ interSlash (((splitSlash l).foldl (cleanStep rooted) []).reverse)

/-- Embedding of Go `filepath.Clean` (Unix separator rules). -/
def goFilepathClean (p : String) : String :=
  if p = "" then "."
  else
    let res := cleanCore (strHasPref p "/") p.data
    if res = [] then "." else ⟨res⟩

/-- Embedding of Go `filepath.Join`: skip leading empty elements, join the
rest with `'/'` and `Clean` the result; all-empty input yields `""`. -/
def goFilepathJoin (elems : List String) : String :=
  match elems with
  | [] => ""
  | e :: rest =>
    if e = "" then goFilepathJoin rest
    else goFilepathClean ⟨interSlash ((e :: rest).map String.data)⟩

/-- Embedding of Go `filepath.Base`: strip trailing slashes and return the
final path element. -/
def goFilepathBase (p : String) : String :=
  if p = "" then "."
  else
    let l := (p.data.reverse.dropWhile (· = '/')).reverse
    let b := (l.reverse.takeWhile (· ≠ '/')).reverse
    if b = [] then "/" else ⟨b⟩

/-- Path `q` is `p` itself or lies inside `p`'s subtree (`q` starts with
`p ++ "/"`).  This is the resolution-based notion of "inside the
directory `p`" used to state the path-traversal claims, and the set of
paths removed by `os.RemoveAll p`. -/
def underEq (p q : String) : Bool :=
  q == p || strHasPref q (p ++ "/")

/-- A path component that names a plain directory entry: non-empty, not a
navigation element, and free of separators. -/
def plainComp (c : String) : Bool :=
  c ≠ "" && c ≠ "." && c ≠ ".." && !(c.data.contains '/')

/-- The absolute path with the given components. -/
def absPathS (cs : List String) : String :=
  ⟨'/' :: interSlash (cs.map String.data)⟩

/-! ## Archive extraction (`ExtractTarGz`, `ExtractZip`, `ExtractAndFlatten`)

The extractors are embedded at the level of the filesystem paths they
create.  An archive is a list of entries; extraction walks the entries in
order, computes `target := filepath.Join(destDir, name)`, applies the
source's traversal check `strings.HasPrefix(filepath.Clean(target),
filepath.Clean(destDir))`, and on success records the path created for
directory, regular-file and symlink entries (other tar type flags create
nothing).
-/

/-- Type flag of a tar entry, as switched on by `ExtractTarGz`. -/
inductive TarKind where
  | dir
  | reg
  | symlink
  | other
deriving DecidableEq

/-- An archive entry as seen by the extractors: its name and type flag. -/
structure TarEntry where
  name : String
  kind : TarKind
deriving DecidableEq

/-- Embedding of the traversal check both extractors perform on an entry:
`strings.HasPrefix(filepath.Clean(filepath.Join(destDir, name)),
filepath.Clean(destDir))`. -/
def entryCheckOk (destDir name : String) : Bool :=
  strHasPref (goFilepathClean (goFilepathJoin [destDir, name])) (goFilepathClean destDir)

/-- Embedding of `ExtractTarGz`: the list of filesystem paths the
extraction loop creates, or the error it fails with. -/
def extractTarGzPaths (destDir : String) : List TarEntry → Except String (List String)
  | [] => .ok []
  | e :: rest =>
    let target := goFilepathJoin [destDir, e.name]
    if !entryCheckOk destDir e.name then .error ("invalid path in archive: " ++ e.name)
    else
      match e.kind with
      | .other => extractTarGzPaths destDir rest
      | _ =>
        match extractTarGzPaths destDir rest with
        | .error msg => .error msg
        | .ok created => .ok (target :: created)

/-- An entry of a zip archive: its name and whether it is a directory. -/
structure ZipEntry where
  name : String
  isDir : Bool
deriving DecidableEq

/-- Embedding of `ExtractZip`: the list of filesystem paths the
extraction loop creates, or the error it fails with. -/
def extractZipPaths (destDir : String) : List ZipEntry → Except String (List String)
  | [] => .ok []
  | e :: rest =>
    let target := goFilepathJoin [destDir, e.name]
    if !entryCheckOk destDir e.name then .error ("invalid path in archive: " ++ e.name)
    else
      match extractZipPaths destDir rest with
      | .error msg => .error msg
      | .ok created => .ok (target :: created)

/-- A resolved entry name escapes the destination directory when the
joined path is neither the cleaned destination itself nor inside its
subtree. -/
def entryEscapes (destDir name : String) : Bool :=
  !underEq (goFilepathClean destDir) (goFilepathJoin [destDir, name])

/-! ## Checksum verification (`VerifyChecksum`) and `NodeInstaller.Install`

`VerifyChecksum` hex-encodes the SHA-256 digest of the file and compares
it to the expected string with `strings.EqualFold`.  The SHA-256
function itself (Go's `crypto/sha256`) is kept abstract as a parameter
`hash` from byte lists to byte lists; the claims under verification are
about the comparison and the control flow around it, which do not depend
on the digest function's internals.  File contents are passed directly
(the `os.Open`/`io.Copy` error paths concern an unreadable temp file and
are orthogonal to the claims).  Case folding is modelled on ASCII, which
coincides with Go's Unicode simple folding on hex-digest strings.
-/

/-- Lower-case an ASCII letter, identity elsewhere. -/
def asciiLower (c : Char) : Char :=
  if 'A' ≤ c ∧ c ≤ 'Z' then Char.ofNat (c.toNat + 32) else c

/-- Embedding of Go `strings.EqualFold` restricted to ASCII folding. -/
def goEqualFold (a b : String) : Bool :=
  a.data.map asciiLower == b.data.map asciiLower

/-- Hex digit for a value below 16 (lower-case, as Go `encoding/hex`). -/
def hexDigit (n : Nat) : Char :=
  if n < 10 then Char.ofNat ('0'.toNat + n) else Char.ofNat ('a'.toNat + (n - 10))

/-- Embedding of Go `hex.EncodeToString` on a list of bytes. -/
def hexEncode (bs : List Nat) : String :=
  ⟨(bs.map (fun b => [hexDigit (b / 16 % 16), hexDigit (b % 16)])).flatten⟩

/-- Embedding of `VerifyChecksum`: hex-encode the digest of the file
contents and compare case-insensitively with the expected hex string;
a mismatch is an error naming both values. -/
def verifyChecksum (hash : List Nat → List Nat) (filePath : String) (content : List Nat)
    (expectedHash : String) : Except String Unit :=
  let actual := hexEncode (hash content)
  if !goEqualFold actual expectedHash then
    .error ("checksum mismatch for " ++ goFilepathBase filePath ++ ": expected "
      ++ expectedHash ++ ", got " ++ actual)
  else
    .ok ()

/-- Error message of an `Except`, or `""` on success. -/
def exErrMsg : Except String α → String
  | .error e => e
  | .ok _ => ""

/-- Embedding of `NodeInstaller.Install` as its sequence of steps:
download to a temp file, fetch the expected checksum, verify, and only
then extract into the target directory.  The outcomes of the two network
steps and of extraction are passed as parameters; the returned `Bool`
records whether `ExtractAndFlatten` was reached. -/
def nodeInstall (hash : List Nat → List Nat) (tmpFile : String)
    (download : Except String (List Nat)) (fetchChecksum : Except String String)
    (extractResult : Except String Unit) : Except String Unit × Bool :=
  match download with
  | .error e => (.error ("failed to download Node.js: " ++ e), false)
  | .ok content =>
    match fetchChecksum with
    | .error e => (.error ("failed to fetch Node.js checksum: " ++ e), false)
    | .ok expectedHash =>
      match verifyChecksum hash tmpFile content expectedHash with
      | .error e => (.error ("Node.js checksum verification failed: " ++ e), false)
      | .ok _ =>
        match extractResult with
        | .error e => (.error ("failed to extract Node.js: " ++ e), true)
        | .ok _ => (.ok (), true)

/-! ## Installation ledger (`internal/state`)

`State` is the persisted ledger; all fields are embedded with the names
and string representations of the Go structs (timestamps are plain
strings there as well).  The on-disk filesystem is modelled as the list
of existing paths plus the set of paths on which `os.RemoveAll` fails,
so directory deletion can be observed and can err.
-/

/-- Embedding of `state.Installation`. -/
structure Installation where
  Runtime : String := ""
  Version : String := ""
  Path : String := ""
  InstalledAt : String := ""
  Template : String := ""
  Checksum : String := ""
  PreviousVersion : String := ""
  PreviousPath : String := ""
  Action : String := ""
deriving DecidableEq

/-- Embedding of `state.PathModification`. -/
structure PathModification where
  Method : String := ""
  File : String := ""
  Line : String := ""
  Value : String := ""
  AddedAt : String := ""
deriving DecidableEq

/-- Embedding of `state.EnvModification`. -/
structure EnvModification where
  Name : String := ""
  Value : String := ""
  Method : String := ""
  File : String := ""
  AddedAt : String := ""
deriving DecidableEq

/-- Embedding of `state.State`. -/
structure State where
  Version : String
  Installations : List Installation
  PathModifications : List PathModification
  EnvModifications : List EnvModification
deriving DecidableEq

/-- Embedding of `state.NewState`: the empty ledger (the Go
`EnvModifications` field is left at its zero value). -/
def newState : State :=
  { Version := "1.0.0"
    Installations := []
    PathModifications := []
    EnvModifications := [] }

/-- Loop body of `RemoveInstallation`: keep every record that does not
match the runtime/version pair. -/
def removeInstLoop (rt ver : String) : List Installation → List Installation
  | [] => []
  | i :: rest =>
    if i.Runtime == rt && i.Version == ver then removeInstLoop rt ver rest
    else i :: removeInstLoop rt ver rest

/-- Embedding of `State.RemoveInstallation`. -/
def removeInstallation (s : State) (rt ver : String) : State :=
  { s with Installations := removeInstLoop rt ver s.Installations }

/-- Loop body of `RemovePathModification`: keep every record whose value
differs. -/
def removePathModLoop (value : String) : List PathModification → List PathModification
  | [] => []
  | m :: rest =>
    if m.Value == value then removePathModLoop value rest
    else m :: removePathModLoop value rest

/-- Embedding of `State.RemovePathModification`. -/
def removePathModification (s : State) (value : String) : State :=
  { s with PathModifications := removePathModLoop value s.PathModifications }

/-- Loop body of `RemoveEnvModification`: keep every record whose name
differs. -/
def removeEnvModLoop (name : String) : List EnvModification → List EnvModification
  | [] => []
  | m :: rest =>
    if m.Name == name then removeEnvModLoop name rest
    else m :: removeEnvModLoop name rest

/-- Embedding of `State.RemoveEnvModification`. -/
def removeEnvModification (s : State) (name : String) : State :=
  { s with EnvModifications := removeEnvModLoop name s.EnvModifications }

/-- The on-disk filesystem, as the list of existing paths together with
the paths on which `os.RemoveAll` would fail (disk I/O errors). -/
structure FS where
  dirs : List String
  failRemove : List String
deriving DecidableEq

/-- Embedding of `os.RemoveAll p`: delete `p` and everything below it, or
fail when the path is marked as undeletable. -/
def fsRemoveAll (fs : FS) (p : String) : Except String FS :=
  if fs.failRemove.contains p then .error ("permission denied: " ++ p)
  else .ok { fs with dirs := fs.dirs.filter (fun q => !underEq p q) }

/-- Loop of `UndoInstallation` that locates the first installation record
matching the runtime/version pair. -/
def findInstLoop (rt ver : String) : List Installation → Option Installation
  | [] => none
  | i :: rest =>
    if i.Runtime == rt && i.Version == ver then some i else findInstLoop rt ver rest

/-- Loop of `UndoInstallation` that locates the first PATH-modification
record whose value has the installation path as prefix (and then
breaks). -/
def findPathModLoop (instPath : String) : List PathModification → Option PathModification
  | [] => none
  | m :: rest =>
    if instPath != "" && strHasPref m.Value instPath then some m
    else findPathModLoop instPath rest

/-- Loop of `UndoInstallation` that collects every env-modification
record whose value has the installation path as prefix. -/
def collectEnvModsLoop (instPath : String) : List EnvModification → List EnvModification
  | [] => []
  | m :: rest =>
    if instPath != "" && strHasPref m.Value instPath then
      m :: collectEnvModsLoop instPath rest
    else collectEnvModsLoop instPath rest

/-- Embedding of `state.UndoResult`. -/
structure UndoResult where
  PathMod : Option PathModification
  EnvMods : List EnvModification
  Previous : Option Installation
deriving DecidableEq

/-- Embedding of `State.UndoInstallation`, with the mutated receiver and
filesystem returned explicitly alongside the Go result.  The error paths
(missing record, failed directory removal) return before any ledger
mutation, exactly as the source does. -/
def undoInstallation (fs : FS) (s : State) (rt ver : String) :
    Except String UndoResult × FS × State :=
  match findInstLoop rt ver s.Installations with
  | none => (.error ("installation not found: " ++ rt ++ " " ++ ver), fs, s)
  | some target =>
    let previous : Option Installation :=
      if target.PreviousVersion != "" then
        some { Runtime := target.Runtime, Version := target.PreviousVersion,
               Path := target.PreviousPath }
      else none
    let rmStep : Except String FS :=
      if target.Path != "" then fsRemoveAll fs target.Path else .ok fs
    match rmStep with
    | .error e => (.error ("failed to remove " ++ target.Path ++ ": " ++ e), fs, s)
    | .ok fs' =>
      let pathMod := findPathModLoop target.Path s.PathModifications
      let envMods := collectEnvModsLoop target.Path s.EnvModifications
      let s1 := removeInstallation s rt ver
      let s2 := match pathMod with
        | some pm => removePathModification s1 pm.Value
        | none => s1
      let s3 := envMods.foldl (fun st em => removeEnvModification st em.Name) s2
      (.ok { PathMod := pathMod, EnvMods := envMods, Previous := previous }, fs', s3)

/-- Iteration of `UndoAll` over a snapshot of the installation list,
threading the mutating ledger and filesystem and collecting per-item
results and errors. -/
def undoAllLoop (fs : FS) (s : State) :
    List Installation → (List UndoResult × List String) × FS × State
  | [] => (([], []), fs, s)
  | inst :: rest =>
    match undoInstallation fs s inst.Runtime inst.Version with
    | (.error e, fs1, s1) =>
      let ((results, errs), fs2, s2) := undoAllLoop fs1 s1 rest
      ((results, (inst.Runtime ++ " " ++ inst.Version ++ ": " ++ e) :: errs), fs2, s2)
    | (.ok r, fs1, s1) =>
      let ((results, errs), fs2, s2) := undoAllLoop fs1 s1 rest
      ((r :: results, errs), fs2, s2)

/-- Embedding of `State.UndoAll`: copy the installation list first, then
undo each snapshotted record, never aborting on a per-item error. -/
def undoAll (fs : FS) (s : State) : (List UndoResult × List String) × FS × State :=
  undoAllLoop fs s s.Installations

/-! ## Ledger persistence (`Load`, `Save`)

`Save` marshals the ledger with `encoding/json` struct tags (fields
marked `omitempty` are dropped when empty) and `Load` unmarshals it,
returning `NewState()` when no state file exists.  JSON documents are
embedded as a small value tree (`JValue`); Go's unmarshalling of a
string/slice struct field errors on a type mismatch, yields the zero
value when the key is absent, and ignores unknown keys, which is what
the field readers below implement.  Only the JSON shapes producible for
`State` need modelling, so numbers/booleans/null are not represented.
-/

/-- JSON value tree for the state document. -/
inductive JValue where
  | jstr : String → JValue
  | jarr : List JValue → JValue
  | jobj : List (String × JValue) → JValue

/-- Look up an object key (last occurrence wins, as in `encoding/json`). -/
def jLookup (fields : List (String × JValue)) (k : String) : Option JValue :=
  fields.foldl (fun acc f => if f.1 == k then some f.2 else acc) none

/-- Read a string field: absent means `""`, non-string is an error. -/
def jGetStr (fields : List (String × JValue)) (k : String) : Except String String :=
  match jLookup fields k with
  | none => .ok ""
  | some (.jstr s) => .ok s
  | some _ => .error ("cannot unmarshal field " ++ k ++ " into string")

/-- Read an array field: absent means `[]`, non-array is an error. -/
def jGetArr (fields : List (String × JValue)) (k : String) : Except String (List JValue) :=
  match jLookup fields k with
  | none => .ok []
  | some (.jarr xs) => .ok xs
  | some _ => .error ("cannot unmarshal field " ++ k ++ " into slice")

/-- Marshal an `Installation` under its struct tags (`template`,
`checksum`, `previous_version`, `previous_path` are `omitempty`). -/
def marshalInstallation (i : Installation) : JValue :=
  .jobj ([("runtime", .jstr i.Runtime), ("version", .jstr i.Version),
          ("path", .jstr i.Path), ("installed_at", .jstr i.InstalledAt)]
    ++ (if i.Template == "" then [] else [("template", .jstr i.Template)])
    ++ (if i.Checksum == "" then [] else [("checksum", .jstr i.Checksum)])
    ++ (if i.PreviousVersion == "" then [] else [("previous_version", .jstr i.PreviousVersion)])
    ++ (if i.PreviousPath == "" then [] else [("previous_path", .jstr i.PreviousPath)])
    ++ [("action", .jstr i.Action)])

/-- Marshal a `PathModification` under its struct tags (`file` and
`line` are `omitempty`). -/
def marshalPathModification (m : PathModification) : JValue :=
  .jobj ([("method", .jstr m.Method)]
    ++ (if m.File == "" then [] else [("file", .jstr m.File)])
    ++ (if m.Line == "" then [] else [("line", .jstr m.Line)])
    ++ [("value", .jstr m.Value), ("added_at", .jstr m.AddedAt)])

/-- Marshal an `EnvModification` under its struct tags (`file` is
`omitempty`). -/
def marshalEnvModification (m : EnvModification) : JValue :=
  .jobj ([("name", .jstr m.Name), ("value", .jstr m.Value), ("method", .jstr m.Method)]
    ++ (if m.File == "" then [] else [("file", .jstr m.File)])
    ++ [("added_at", .jstr m.AddedAt)])

/-- Embedding of `State.Save`'s `json.MarshalIndent` payload
(`env_modifications` is `omitempty`). -/
def marshalState (s : State) : JValue :=
  .jobj ([("version", .jstr s.Version),
          ("installations", .jarr (s.Installations.map marshalInstallation)),
          ("path_modifications", .jarr (s.PathModifications.map marshalPathModification))]
    ++ (if s.EnvModifications.isEmpty then []
        else [("env_modifications", .jarr (s.EnvModifications.map marshalEnvModification))]))

/-- Unmarshal an `Installation` object. -/
def unmarshalInstallation (j : JValue) : Except String Installation :=
  match j with
  | .jobj f => do
    let runtimeV ← jGetStr f "runtime"
    let versionV ← jGetStr f "version"
    let pathV ← jGetStr f "path"
    let installedAtV ← jGetStr f "installed_at"
    let templateV ← jGetStr f "template"
    let checksumV ← jGetStr f "checksum"
    let prevVersionV ← jGetStr f "previous_version"
    let prevPathV ← jGetStr f "previous_path"
    let actionV ← jGetStr f "action"
    .ok { Runtime := runtimeV, Version := versionV, Path := pathV,
          InstalledAt := installedAtV, Template := templateV, Checksum := checksumV,
          PreviousVersion := prevVersionV, PreviousPath := prevPathV, Action := actionV }
  | _ => .error "cannot unmarshal into Installation"

/-- Unmarshal a `PathModification` object. -/
def unmarshalPathModification (j : JValue) : Except String PathModification :=
  match j with
  | .jobj f => do
    let methodV ← jGetStr f "method"
    let fileV ← jGetStr f "file"
    let lineV ← jGetStr f "line"
    let valueV ← jGetStr f "value"
    let addedAtV ← jGetStr f "added_at"
    .ok { Method := methodV, File := fileV, Line := lineV, Value := valueV, AddedAt := addedAtV }
  | _ => .error "cannot unmarshal into PathModification"

/-- Unmarshal an `EnvModification` object. -/
def unmarshalEnvModification (j : JValue) : Except String EnvModification :=
  match j with
  | .jobj f => do
    let nameV ← jGetStr f "name"
    let valueV ← jGetStr f "value"
    let methodV ← jGetStr f "method"
    let fileV ← jGetStr f "file"
    let addedAtV ← jGetStr f "added_at"
    .ok { Name := nameV, Value := valueV, Method := methodV, File := fileV, AddedAt := addedAtV }
  | _ => .error "cannot unmarshal into EnvModification"

/-- Unmarshal a `State` document. -/
def unmarshalState (j : JValue) : Except String State :=
  match j with
  | .jobj f => do
    let versionV ← jGetStr f "version"
    let instsJ ← jGetArr f "installations"
    let instsV ← instsJ.mapM unmarshalInstallation
    let pathsJ ← jGetArr f "path_modifications"
    let pathsV ← pathsJ.mapM unmarshalPathModification
    let envsJ ← jGetArr f "env_modifications"
    let envsV ← envsJ.mapM unmarshalEnvModification
    .ok { Version := versionV, Installations := instsV,
          PathModifications := pathsV, EnvModifications := envsV }
  | _ => .error "failed to parse state file"

/-- Embedding of `state.Load`: absence of the state file is not an error
and yields `NewState()`; otherwise the document is unmarshalled. -/
def loadState (file : Option JValue) : Except String State :=
  match file with
  | none => .ok newState
  | some j => unmarshalState j

/-- Embedding of `State.Save`: the document written to disk. -/
def saveState (s : State) : JValue :=
  marshalState s

/-! ## Version matcher and plan builder (`internal/engine`)

`versionSatisfies` answers the wildcard token `"latest"` before any
parsing; otherwise it trims the installed string, rejects the
"(version unknown)" sentinel, and parses both sides with the
`Masterminds/semver` library.  The library's parser and constraint
checker are kept abstract as parameters (`newVersion`, `newConstraint`,
`check`): the claims under verification are about the control flow
around them, which holds for every parser.  `BuildPlan` is embedded as a
pure function of the manifest runtime list and the detection snapshot
(the Go code calls `detect.ScanRuntimes()` itself; its result is the
`detected` argument here, and map iteration order is the list order).
-/

/-- Embedding of `detect.RuntimeInfo`. -/
structure RuntimeInfo where
  Name : String := ""
  Installed : Bool := false
  Version : String := ""
  Path : String := ""
deriving DecidableEq

/-- Embedding of `engine.ActionType`. -/
inductive ActionType where
  | skip
  | install
  | upgrade
deriving DecidableEq

/-- Embedding of `engine.RuntimePlan`. -/
structure RuntimePlan where
  Name : String := ""
  DisplayName : String := ""
  RequiredVersion : String := ""
  InstalledVersion : String := ""
  Action : ActionType := .skip
  InstalledPath : String := ""
deriving DecidableEq

/-- Embedding of `engine.PackagePlan`. -/
structure PackagePlan where
  Manager : String := ""
  InstallCommand : String := ""
  ManagerFound : Bool := false
deriving DecidableEq

/-- Manifest fields consumed by the plan builder: the runtime-key to
requirement mapping (as the iterated key/value list) and the package
section. -/
structure Manifest where
  Runtimes : List (String × String) := []
  PackagesManager : String := ""
  PackagesInstallCommand : String := ""
deriving DecidableEq

/-- Embedding of `engine.SetupPlan` (minus the manifest pointer). -/
structure SetupPlan where
  Runtimes : List RuntimePlan
  Packages : Option PackagePlan
deriving DecidableEq

/-- Embedding of the `runtimeDisplayNames` table. -/
def runtimeDisplayNames : List (String × String) :=
  [("node", "Node.js"), ("python", "Python"), ("flutter", "Flutter"),
   ("java", "Java (Temurin)"), ("go", "Go"), ("rust", "Rust"),
   ("ruby", "Ruby"), ("php", "PHP"), ("dotnet", ".NET")]

/-- Embedding of the `runtimeDetectNames` table. -/
def runtimeDetectNames : List (String × String) :=
  [("node", "Node.js"), ("python", "Python"), ("flutter", "Flutter"),
   ("java", "Java"), ("go", "Go"), ("rust", "Rust"),
   ("ruby", "Ruby"), ("php", "PHP"), ("dotnet", ".NET")]

/-- Embedding of the `managerDetectNames` table. -/
def managerDetectNames : List (String × String) :=
  [("npm", "npm"), ("pnpm", "pnpm"), ("yarn", "yarn"),
   ("bun", "bun"), ("pip", "pip"), ("pub", "Dart")]

/-- Go map lookup on a key/value table. -/
def tableLookup (tbl : List (String × String)) (k : String) : Option String :=
  (tbl.find? (fun e => e.1 == k)).map (fun e => e.2)

/-- Embedding of building `detectedMap` and indexing it: later entries
with the same name overwrite earlier ones. -/
def detectedLookup (detected : List RuntimeInfo) (name : String) : Option RuntimeInfo :=
  detected.foldl (fun acc r => if r.Name == name then some r else acc) none

/-- Embedding of Go `strings.Contains`. -/
def goContains (s sub : String) : Bool :=
  goContainsL s.data sub.data
where
  goContainsL : List Char → List Char → Bool
    | s, sub =>
      if sub.isPrefixOf s then true
      else
        match s with
        | [] => false
        | _ :: t => goContainsL t sub

/-- Embedding of `engine.versionSatisfies`.  The requirement `"latest"`
is answered `true` before any parsing; the `"(version unknown)"`
sentinel and every parse failure are definite errors.  `newVersion`,
`newConstraint` and `check` are the `Masterminds/semver` entry points. -/
def versionSatisfies {V C : Type} (newVersion : String → Except String V)
    (newConstraint : String → Except String C) (check : C → V → Bool)
    (installed required : String) : Except String Bool :=
  if required == "latest" then .ok true
  else
    let installed := installed.trim
    if goContains installed "(version unknown)" then .error "version unknown"
    else
      match newVersion installed with
      | .error e => .error ("cannot parse installed version " ++ installed ++ ": " ++ e)
      | .ok v =>
        match newConstraint required with
        | .error e => .error ("cannot parse version requirement " ++ required ++ ": " ++ e)
        | .ok c => .ok (check c v)

/-- Per-runtime body of `BuildPlan`'s comparison loop. -/
def planFor {V C : Type} (newVersion : String → Except String V)
    (newConstraint : String → Except String C) (check : C → V → Bool)
    (detected : List RuntimeInfo) (entry : String × String) : RuntimePlan :=
  let name := entry.1
  let required := entry.2
  let detectName := (tableLookup runtimeDetectNames name).getD name
  let displayName := (tableLookup runtimeDisplayNames name).getD name
  let base : RuntimePlan :=
    { Name := name, DisplayName := displayName, RequiredVersion := required }
  match detectedLookup detected detectName with
  | some info =>
    if info.Installed then
      match versionSatisfies newVersion newConstraint check info.Version required with
      | .error _ =>
        { base with InstalledVersion := info.Version, InstalledPath := info.Path,
                    Action := .upgrade }
      | .ok true =>
        { base with InstalledVersion := info.Version, InstalledPath := info.Path,
                    Action := .skip }
      | .ok false =>
        { base with InstalledVersion := info.Version, InstalledPath := info.Path,
                    Action := .upgrade }
    else { base with Action := .install }
  | none => { base with Action := .install }

/-- Embedding of `engine.BuildPlan` on a detection snapshot. -/
def buildPlan {V C : Type} (newVersion : String → Except String V)
    (newConstraint : String → Except String C) (check : C → V → Bool)
    (m : Manifest) (detected : List RuntimeInfo) : SetupPlan :=
  { Runtimes := m.Runtimes.map (planFor newVersion newConstraint check detected)
    Packages :=
      if m.PackagesManager != "" then
        some { Manager := m.PackagesManager
               InstallCommand := m.PackagesInstallCommand
               ManagerFound :=
                 match tableLookup managerDetectNames m.PackagesManager with
                 | some mname =>
                   match detectedLookup detected mname with
                   | some info => info.Installed
                   | none => false
                 | none => false }
      else none }

/-- Embedding of `SetupPlan.NeedsAction`. -/
def needsAction (p : SetupPlan) : Bool :=
  p.Runtimes.any (fun r => r.Action != .skip)

/-! ## Unix PATH mutator (`addToPathUnix`)

Shell-config files are modelled as an association list from file name to
content; a file that is absent reads as empty (the `os.IsNotExist`
branch) and is created on append.  The in-memory `os.Setenv` update and
the per-file I/O-error `continue` branches do not affect the modelled
results: a file whose content already holds the marker is skipped before
any write is attempted.
-/

/-- Read a shell-config file, treating absence as empty content. -/
def readFileD (fsFiles : List (String × String)) (name : String) : String :=
  ((fsFiles.find? (fun e => e.1 == name)).map (fun e => e.2)).getD ""

/-- Append text to a shell-config file, creating it when absent
(`os.OpenFile` with `O_APPEND|O_CREATE|O_WRONLY`). -/
def appendFile (fsFiles : List (String × String)) (name text : String) :
    List (String × String) :=
  if (fsFiles.find? (fun e => e.1 == name)).isSome then
    fsFiles.map (fun e => if e.1 == name then (e.1, e.2 ++ text) else e)
  else fsFiles ++ [(name, text)]

/-- Loop of `addToPathUnix` over the shell-config files: skip a file that
already holds the marker, otherwise append the markered block and record
the file as modified. -/
def addToPathUnixLoop (marker fullLine : String) :
    List String → List (String × String) × String → List (String × String) × String
  | [], acc => acc
  | rcFile :: rest, (fsFiles, modifiedFile) =>
    let content := readFileD fsFiles rcFile
    if goContains content marker then
      addToPathUnixLoop marker fullLine rest (fsFiles, modifiedFile)
    else
      addToPathUnixLoop marker fullLine rest
        (appendFile fsFiles rcFile ("\n" ++ fullLine ++ "\n"), rcFile)

/-- Embedding of `addToPathUnix`: the `files` argument is the result of
`shellConfigFiles()`, `fsFiles` the current file contents.  Returns the
updated file contents and the Go `(*PathModification, error)` pair as an
`Except` of an `Option`. -/
def addToPathUnix (files : List String) (fsFiles : List (String × String))
    (binDir : String) : List (String × String) × Except String (Option PathModification) :=
  let exportLine := "export PATH=\"" ++ binDir ++ ":$PATH\""
  let marker := "# templatr-setup: " ++ binDir
  let fullLine := marker ++ "\n" ++ exportLine
  if files.isEmpty then (fsFiles, .error "no shell config files found")
  else
    let (fsFiles', modifiedFile) := addToPathUnixLoop marker fullLine files (fsFiles, "")
    if modifiedFile != "" then
      (fsFiles', .ok (some { Method := "shell_rc", File := modifiedFile,
                             Line := fullLine, Value := binDir }))
    else (fsFiles', .ok none)

/-! ## Execution orchestrator target directories (`ExecutePlan`,
`ExtractAndFlatten`)

`ExecutePlan` installs each runtime into
`filepath.Join(runtimesBase, rp.Name, version)`.  `ExtractAndFlatten`'s
effect on the filesystem is modelled on the path-set view of `FS.dirs`:
`os.MkdirTemp` creates a fresh `tmpDir` next to the target,
`ExtractArchive` creates the payload paths under it, `os.RemoveAll`
clears the target, `os.Rename` moves the source subtree onto the
target and the deferred `os.RemoveAll` discards the temp directory.
(`os.MkdirAll` of the target's parent — an ancestor shared by every
version of the runtime — is not represented, as it creates no path
inside any version directory.)
-/

/-- Target directory computed by `ExecutePlan` for one runtime. -/
def execTargetDir (runtimesBase name version : String) : String :=
  goFilepathJoin [runtimesBase, name, version]

/-- Path-set effect of `os.RemoveAll`. -/
def removeAllFS (fs : List String) (p : String) : List String :=
  fs.filter (fun q => !underEq p q)

/-- Relocation of one path under `os.Rename src dst`. -/
def rebase (src dst q : String) : String :=
  if q == src then dst
  else if strHasPref q (src ++ "/") then ⟨dst.data ++ q.data.drop src.data.length⟩
  else q

/-- Path-set effect of `os.Rename src dst`. -/
def renameFS (fs : List String) (src dst : String) : List String :=
  fs.map (rebase src dst)

/-- Path-set effect of `ExtractAndFlatten`: extract the payload into the
fresh temp directory, flatten a single top-level directory when present
(`single`), clear the target, move the payload root onto it, and drop
the temp directory.  The cross-filesystem fallback of the move
(`copyDir`) writes the same paths under the target as the rename, so
the rename models both branches on the path-set view. -/
def extractAndFlattenFS (fs : List String) (tmpDir targetDir : String)
    (payload : List String) (single : Option String) : List String :=
  let fs1 := fs ++ tmpDir :: payload.map (fun p => tmpDir ++ "/" ++ p)
  let srcDir := match single with
    | some d => tmpDir ++ "/" ++ d
    | none => tmpDir
  let fs2 := removeAllFS fs1 targetDir
  let fs3 := renameFS fs2 srcDir targetDir
  removeAllFS fs3 tmpDir

/-! ## Derived views and concrete fixtures used by the theorems -/

/-- Detection entry consulted by `BuildPlan` for a manifest runtime key:
the key is mapped through `runtimeDetectNames` (unknown keys fall back to
the raw key) and looked up in the detection map. -/
def detectedFor (detected : List RuntimeInfo) (name : String) : Option RuntimeInfo :=
  detectedLookup detected ((tableLookup runtimeDetectNames name).getD name)

/-- Ledger with one installation at `/p` and two PATH records whose
values are both prefixed by `/p`. -/
def twoPathModState : State :=
  { Version := "1.0.0"
    Installations := [{ Runtime := "node", Version := "1.0.0", Path := "/p", Action := "install" }]
    PathModifications := [{ Method := "shell_rc", Value := "/p/a" },
                          { Method := "shell_rc", Value := "/p/b" }]
    EnvModifications := [] }

/-- Filesystem holding the `/p` installation directory. -/
def twoPathModFS : FS :=
  { dirs := ["/p", "/p/a", "/p/b"], failRemove := [] }

/-- Ledger with exactly one installation and one PATH record whose value
is prefixed by the installation's path. -/
def singleInstState : State :=
  { Version := "1.0.0"
    Installations := [{ Runtime := "node", Version := "22.14.0", Path := "/tmp/nd",
                        Action := "install" }]
    PathModifications := [{ Method := "shell_rc", Value := "/tmp/nd/bin" }]
    EnvModifications := [] }

/-- Filesystem holding that installation's directory tree. -/
def singleInstFS : FS :=
  { dirs := ["/tmp/nd", "/tmp/nd/bin"], failRemove := [] }

example : goFilepathClean "/tmp/dest/../dest-evil/x" = "/tmp/dest-evil/x" := by decide
example : goFilepathClean "a/../../b" = "../b" := by decide
example : goFilepathClean "/.." = "/" := by decide
example : goFilepathClean "//a//b/" = "/a/b" := by decide
example : goFilepathClean "" = "." := by decide
example : goFilepathJoin ["/tmp/dest", "../dest-evil/x"] = "/tmp/dest-evil/x" := by decide
example : goFilepathJoin ["", "a", "b"] = "a/b" := by decide
example : goFilepathBase "/a/b/" = "b" := by decide
example : goFilepathBase "/" = "/" := by decide
example : absPathS ["tmp", "dest"] = "/tmp/dest" := by decide
example : entryCheckOk "/tmp/dest" "../dest-evil/x" = true := by decide
example : entryEscapes "/tmp/dest" "../dest-evil/x" = true := by decide
example : entryCheckOk "/tmp/dest" "../../etc/passwd" = false := by decide
example : entryCheckOk "/tmp/dest" "sub/ok.txt" = true := by decide
example : extractTarGzPaths "/tmp/dest" [⟨"../dest-evil/x", .reg⟩] = .ok ["/tmp/dest-evil/x"] := rfl
example : extractZipPaths "/tmp/dest" [⟨"../../etc/passwd", false⟩] = .error "invalid path in archive: ../../etc/passwd" := rfl

/-! ## Theorems settling the claims -/

/-- C5: for every pair (installedVersion, requirement) where the
requirement is the wildcard-acceptance token `"latest"`,
`versionSatisfies` returns satisfied=true and no error, regardless of
whether the installed version parses (including the "version unknown"
sentinel), and for every semver parser. -/
theorem versionSatisfies_latest_always_true {V C : Type}
    (newVersion : String → Except String V) (newConstraint : String → Except String C)
    (check : C → V → Bool) (installed : String) :
    versionSatisfies newVersion newConstraint check installed "latest" = .ok true := rfl

/-- C6: `Load` returns the empty-but-valid ledger when no state file
exists, and saving a freshly-created empty ledger and loading it back
yields the same empty ledger. -/
theorem load_save_empty_roundtrip :
    loadState none = .ok newState ∧ loadState (some (saveState newState)) = .ok newState :=
  ⟨rfl, rfl⟩

/-- C1: whenever the expected hex digest differs case-insensitively from
the file's digest, `VerifyChecksum` errors, and `NodeInstaller.Install`
propagates that error and never reaches extraction (the returned flag
records whether `ExtractAndFlatten` was invoked). -/
theorem checksum_mismatch_blocks_install
    (hash : List Nat → List Nat) (tmpFile : String) (content : List Nat)
    (expected : String) (extractResult : Except String Unit)
    (hmis : goEqualFold (hexEncode (hash content)) expected = false) :
    (verifyChecksum hash tmpFile content expected).isOk = false ∧
    nodeInstall hash tmpFile (.ok content) (.ok expected) extractResult
      = (.error ("Node.js checksum verification failed: "
          ++ exErrMsg (verifyChecksum hash tmpFile content expected)), false) := by
  simp [verifyChecksum, nodeInstall, exErrMsg, hmis, Except.isOk, Except.toBool]

/-- Closed instance of `checksum_mismatch_blocks_install` at a concrete
digest function, file and wrong expected digest. -/
theorem checksum_mismatch_blocks_install_witness :
    (verifyChecksum (fun _ => [0]) "/tmp/node.tar.gz" [] "zz").isOk = false ∧
    nodeInstall (fun _ => [0]) "/tmp/node.tar.gz" (.ok []) (.ok "zz") (.ok ())
      = (.error ("Node.js checksum verification failed: "
          ++ exErrMsg (verifyChecksum (fun _ => [0]) "/tmp/node.tar.gz" [] "zz")), false) :=
  checksum_mismatch_blocks_install (fun _ => [0]) "/tmp/node.tar.gz" [] "zz" (.ok ())
    (by decide)

/-- C2 (code bug): the extractors' `strings.HasPrefix` traversal check
lacks a separator, so the entry `../dest-evil/x` of an archive extracted
to `/tmp/dest` resolves to `/tmp/dest-evil/x` — outside the destination
directory — yet passes the check, and both `ExtractTarGz` and
`ExtractZip` succeed and create that outside path instead of failing. -/
theorem extract_traversal_check_bypassed :
    entryEscapes "/tmp/dest" "../dest-evil/x" = true ∧
    entryCheckOk "/tmp/dest" "../dest-evil/x" = true ∧
    extractTarGzPaths "/tmp/dest" [⟨"../dest-evil/x", .reg⟩] = .ok ["/tmp/dest-evil/x"] ∧
    extractZipPaths "/tmp/dest" [⟨"../dest-evil/x", false⟩] = .ok ["/tmp/dest-evil/x"] ∧
    underEq (goFilepathClean "/tmp/dest") "/tmp/dest-evil/x" = false :=
  ⟨by decide, by decide, rfl, rfl, by decide⟩

/-- C10: when `UndoInstallation` returns an error — record not found, or
directory deletion failed — the ledger and the filesystem are left
completely unchanged. -/
theorem undoInstallation_error_leaves_ledger_unchanged
    (fs : FS) (s : State) (rt ver : String)
    (h : (undoInstallation fs s rt ver).1.isOk = false) :
    (undoInstallation fs s rt ver).2.1 = fs ∧ (undoInstallation fs s rt ver).2.2 = s := by
  unfold undoInstallation at h ⊢
  cases hf : findInstLoop rt ver s.Installations with
  | none => simp [hf]
  | some target =>
    by_cases hp : target.Path = ""
    · simp [hf, hp, Except.isOk, Except.toBool] at h
    · cases hfr : fsRemoveAll fs target.Path with
      | error e => simp [hf, hp, hfr]
      | ok fs1 => simp [hf, hp, hfr, Except.isOk, Except.toBool] at h

/-- Closed instance of `undoInstallation_error_leaves_ledger_unchanged`
at the empty ledger, where the record is not found. -/
theorem undoInstallation_error_leaves_ledger_unchanged_witness :
    (undoInstallation ⟨[], []⟩ newState "node" "22.14.0").2.1 = ⟨[], []⟩ ∧
    (undoInstallation ⟨[], []⟩ newState "node" "22.14.0").2.2 = newState :=
  undoInstallation_error_leaves_ledger_unchanged ⟨[], []⟩ newState "node" "22.14.0" (by decide)

/-- Auxiliary: `UndoAll`'s iteration yields one result or one error per
snapshotted installation record. -/
theorem undoAllLoop_length (fs : FS) (s : State) (insts : List Installation) :
    ((undoAllLoop fs s insts).1.1).length + ((undoAllLoop fs s insts).1.2).length
      = insts.length := by
  induction insts generalizing fs s with
  | nil => simp [undoAllLoop]
  | cons inst rest ih =>
    unfold undoAllLoop
    rcases hu : undoInstallation fs s inst.Runtime inst.Version with ⟨res, fs1, s1⟩
    rcases hrest : undoAllLoop fs1 s1 rest with ⟨⟨results, errs⟩, fs2, s2⟩
    have hlen := ih fs1 s1
    rw [hrest] at hlen
    simp only at hlen
    cases res with
    | error e =>
      simp only [hu, hrest, List.length_cons]
      omega
    | ok r =>
      simp only [hu, hrest, List.length_cons]
      omega

/-- C8: `UndoAll` snapshots the installation list and attempts
`UndoInstallation` for every record present at call time; per-item
failures are collected as errors without stopping the iteration, so the
numbers of returned results and errors sum to the number of snapshotted
records. -/
theorem undoAll_processes_every_installation (fs : FS) (s : State) :
    ((undoAll fs s).1.1).length + ((undoAll fs s).1.2).length = s.Installations.length :=
  undoAllLoop_length fs s s.Installations

/-- C3: `BuildPlan` maps every manifest runtime entry through the
per-runtime comparison, and the assigned action satisfies: skip iff a
detected version exists (a detection entry found and installed) and
satisfies the requirement; install iff no detected version exists;
upgrade iff a detected version exists but fails the requirement or the
check errored (a parse failure yields action, never skip). -/
theorem buildPlan_action_trichotomy {V C : Type}
    (newVersion : String → Except String V) (newConstraint : String → Except String C)
    (check : C → V → Bool) (m : Manifest) (detected : List RuntimeInfo)
    (name required : String) :
    ((planFor newVersion newConstraint check detected (name, required)).Action = .skip ↔
      ∃ i, detectedFor detected name = some i ∧ i.Installed = true ∧
        versionSatisfies newVersion newConstraint check i.Version required = .ok true) ∧
    ((planFor newVersion newConstraint check detected (name, required)).Action = .install ↔
      ¬ ∃ i, detectedFor detected name = some i ∧ i.Installed = true) ∧
    ((planFor newVersion newConstraint check detected (name, required)).Action = .upgrade ↔
      ∃ i, detectedFor detected name = some i ∧ i.Installed = true ∧
        (versionSatisfies newVersion newConstraint check i.Version required = .ok false ∨
         ∃ e, versionSatisfies newVersion newConstraint check i.Version required = .error e)) ∧
    (buildPlan newVersion newConstraint check m detected).Runtimes
      = m.Runtimes.map (planFor newVersion newConstraint check detected) := by
  refine ⟨?_, ?_, ?_, rfl⟩ <;>
  · unfold planFor detectedFor
    cases hd : detectedLookup detected ((tableLookup runtimeDetectNames name).getD name) with
    | none => simp [hd]
    | some info =>
      cases hi : info.Installed with
      | false => simp [hd, hi]
      | true =>
        cases hv : versionSatisfies newVersion newConstraint check info.Version required with
        | ok b => cases b <;> simp [hd, hi, hv]
        | error e => simp [hd, hi, hv]

/-- Auxiliary: the `addToPathUnix` loop is the identity when every
shell-config file already holds the marker. -/
theorem addToPathUnixLoop_all_marked (marker fullLine : String) (files : List String)
    (fsFiles : List (String × String))
    (h : ∀ f ∈ files, goContains (readFileD fsFiles f) marker = true) :
    addToPathUnixLoop marker fullLine files (fsFiles, "") = (fsFiles, "") := by
  induction files with
  | nil => rfl
  | cons f0 rest ih =>
    have hf0 := h f0 (List.mem_cons_self f0 rest)
    unfold addToPathUnixLoop
    simp only [hf0, if_true]
    exact ih (fun f hf => h f (List.mem_cons_of_mem f0 hf))

/-- C7: a call to `AddToPath(dir)` made after the markered block for
`dir` is already persisted in every relevant shell-config file returns
`(nil, nil)` — no modification record and no error — and appends no
duplicate block to any file (the file contents are returned unchanged). -/
theorem addToPath_second_call_noop (files : List String)
    (fsFiles : List (String × String)) (binDir : String)
    (hne : files ≠ [])
    (h : ∀ f ∈ files, goContains (readFileD fsFiles f) ("# templatr-setup: " ++ binDir) = true) :
    addToPathUnix files fsFiles binDir = (fsFiles, .ok none) := by
  unfold addToPathUnix
  have hni : files.isEmpty = false := by
    cases files with
    | nil => exact absurd rfl hne
    | cons a l => rfl
  simp only [hni, Bool.false_eq_true, if_false]
  rw [addToPathUnixLoop_all_marked _ _ _ _ h]
  simp

/-- Closed instance of `addToPath_second_call_noop` on a config file
already holding the markered block. -/
theorem addToPath_second_call_noop_witness :
    addToPathUnix ["/.zshrc"]
      [("/.zshrc", "\n# templatr-setup: /b\nexport PATH=\"/b:$PATH\"\n")] "/b"
      = ([("/.zshrc", "\n# templatr-setup: /b\nexport PATH=\"/b:$PATH\"\n")], .ok none) :=
  addToPath_second_call_noop ["/.zshrc"]
    [("/.zshrc", "\n# templatr-setup: /b\nexport PATH=\"/b:$PATH\"\n")] "/b"
    (by decide) (by decide)

/-- Auxiliary: a path is inside its own subtree. -/
theorem underEq_self (p : String) : underEq p p = true := by
  simp [underEq]

/-- Auxiliary: the installation-search loop is `List.find?`. -/
theorem findInstLoop_eq_find (rt ver : String) (l : List Installation) :
    findInstLoop rt ver l = l.find? (fun i => i.Runtime == rt && i.Version == ver) := by
  induction l with
  | nil => rfl
  | cons i rest ih =>
    unfold findInstLoop
    cases hc : (i.Runtime == rt && i.Version == ver) <;> simp [List.find?_cons, hc, ih]

/-- Auxiliary: the installation-removal loop is `List.filter`. -/
theorem removeInstLoop_eq_filter (rt ver : String) (l : List Installation) :
    removeInstLoop rt ver l = l.filter (fun i => !(i.Runtime == rt && i.Version == ver)) := by
  induction l with
  | nil => rfl
  | cons i rest ih =>
    unfold removeInstLoop
    by_cases h1 : i.Runtime = rt <;> by_cases h2 : i.Version = ver <;>
      simp [List.filter_cons, h1, h2, ih]

/-- Auxiliary: with a non-empty installation path, the PATH-record search
loop is `List.find?` on the prefix predicate. -/
theorem findPathModLoop_eq_find (instPath : String) (hp : (instPath != "") = true)
    (l : List PathModification) :
    findPathModLoop instPath l = l.find? (fun m => strHasPref m.Value instPath) := by
  induction l with
  | nil => rfl
  | cons m rest ih =>
    unfold findPathModLoop
    rw [hp]
    cases hc : strHasPref m.Value instPath <;> simp [List.find?_cons, hc, ih]

/-- Auxiliary: with a non-empty installation path, the env-record
collection loop is `List.filter` on the prefix predicate. -/
theorem collectEnvModsLoop_eq_filter (instPath : String) (hp : (instPath != "") = true)
    (l : List EnvModification) :
    collectEnvModsLoop instPath l = l.filter (fun m => strHasPref m.Value instPath) := by
  induction l with
  | nil => rfl
  | cons m rest ih =>
    unfold collectEnvModsLoop
    rw [hp]
    cases hc : strHasPref m.Value instPath <;> simp [List.filter_cons, hc, ih]

/-- Auxiliary: the PATH-record removal loop is `List.filter`. -/
theorem removePathModLoop_eq_filter (value : String) (l : List PathModification) :
    removePathModLoop value l = l.filter (fun m => !(m.Value == value)) := by
  induction l with
  | nil => rfl
  | cons m rest ih =>
    unfold removePathModLoop
    cases hc : (m.Value == value) <;> simp [List.filter_cons, hc, ih]

/-- Auxiliary: the env-record removal loop is `List.filter`. -/
theorem removeEnvModLoop_eq_filter (name : String) (l : List EnvModification) :
    removeEnvModLoop name l = l.filter (fun m => !(m.Name == name)) := by
  induction l with
  | nil => rfl
  | cons m rest ih =>
    unfold removeEnvModLoop
    cases hc : (m.Name == name) <;> simp [List.filter_cons, hc, ih]

/-- Auxiliary: folding env-record removal over a list of records filters
out every record sharing a name with one of them, and touches no other
ledger field. -/
theorem foldl_removeEnv (ems : List EnvModification) (st : State) :
    ems.foldl (fun acc em => removeEnvModification acc em.Name) st
      = { st with EnvModifications :=
            st.EnvModifications.filter (fun m => !((ems.map (fun e => e.Name)).contains m.Name)) } := by
  induction ems generalizing st with
  | nil => simp
  | cons e0 rest ih =>
    rw [List.foldl_cons, ih]
    simp only [removeEnvModification, removeEnvModLoop_eq_filter, List.filter_filter,
      List.map_cons]
    congr 1
    apply List.filter_congr
    intro a _
    cases hx : (a.Name == e0.Name) <;>
      cases hy : ((rest.map (fun e => e.Name)).contains a.Name) <;>
        simp_all [List.contains_cons]

/-- C4 (amended): for a ledger with a matching installation record whose
path is non-empty, a successful `UndoInstallation` deletes the
installation's directory, removes every matching installation record,
removes the FIRST path-modification record whose value is prefixed by
the installation's path (together with any record sharing that exact
value) while later prefix-matched path records are retained, removes
every env-modification record whose value is prefixed by the path
(together with any env record sharing one of those names), and returns
the removed first path modification and the prefix-matched env
modifications. -/
theorem undoInstallation_cleanup_spec (fs fs' : FS) (s s' : State) (rt ver : String)
    (res : UndoResult) (inst : Installation)
    (hfind : s.Installations.find? (fun i => i.Runtime == rt && i.Version == ver) = some inst)
    (hpath : inst.Path ≠ "")
    (hok : undoInstallation fs s rt ver = (.ok res, fs', s')) :
    inst.Path ∉ fs'.dirs ∧
    s'.Installations = s.Installations.filter (fun i => !(i.Runtime == rt && i.Version == ver)) ∧
    res.PathMod = s.PathModifications.find? (fun m => strHasPref m.Value inst.Path) ∧
    s'.PathModifications =
      (match s.PathModifications.find? (fun m => strHasPref m.Value inst.Path) with
       | some pm => s.PathModifications.filter (fun m => !(m.Value == pm.Value))
       | none => s.PathModifications) ∧
    res.EnvMods = s.EnvModifications.filter (fun m => strHasPref m.Value inst.Path) ∧
    s'.EnvModifications = s.EnvModifications.filter
      (fun m => !(((s.EnvModifications.filter (fun m2 => strHasPref m2.Value inst.Path)).map
        (fun m2 => m2.Name)).contains m.Name)) := by
  have hp' : (inst.Path != "") = true := by simpa using hpath
  unfold undoInstallation at hok
  rw [findInstLoop_eq_find, hfind] at hok
  simp only [hp', if_true] at hok
  cases hc : fs.failRemove.contains inst.Path with
  | true =>
    have hm : inst.Path ∈ fs.failRemove := by simpa using hc
    simp [fsRemoveAll, hm] at hok
  | false =>
    have hm : inst.Path ∉ fs.failRemove := by simpa using hc
    simp only [fsRemoveAll, List.elem_eq_mem, decide_eq_true_eq, hm, if_false,
      Prod.mk.injEq, Except.ok.injEq] at hok
    obtain ⟨hres, hfs, hs⟩ := hok
    subst hres hfs hs
    refine ⟨?_, ?_, ?_, ?_, ?_, ?_⟩
    · intro hmem
      rw [List.mem_filter] at hmem
      simp [underEq_self] at hmem
    · cases hpm : findPathModLoop inst.Path s.PathModifications <;>
        simp [foldl_removeEnv, removePathModification, removeInstallation,
          removeInstLoop_eq_filter, hpm]
    · exact findPathModLoop_eq_find inst.Path hp' s.PathModifications
    · rw [← findPathModLoop_eq_find inst.Path hp']
      cases hpm : findPathModLoop inst.Path s.PathModifications <;>
        simp [foldl_removeEnv, removePathModification, removeInstallation,
          removePathModLoop_eq_filter, hpm]
    · exact collectEnvModsLoop_eq_filter inst.Path hp' s.EnvModifications
    · rw [← collectEnvModsLoop_eq_filter inst.Path hp']
      cases hpm : findPathModLoop inst.Path s.PathModifications <;>
        simp [foldl_removeEnv, removePathModification, removeInstallation, hpm]

/-- C4 counterexample: on a ledger whose matching installation at `/p`
has TWO path-modification records prefixed by `/p`, a successful
`UndoInstallation` leaves the second prefix-matched record in the
ledger — refuting the claim that every path-modification record whose
value is prefixed by the installation's path is removed. -/
theorem undo_leaves_second_pathmod_cex :
    (undoInstallation twoPathModFS twoPathModState "node" "1.0.0").1.isOk = true ∧
    ((undoInstallation twoPathModFS twoPathModState "node" "1.0.0").2.2).PathModifications
      = [{ Method := "shell_rc", Value := "/p/b" }] ∧
    strHasPref "/p/b" "/p" = true :=
  ⟨rfl, rfl, by decide⟩

/-- Closed instance of `undoInstallation_cleanup_spec` on the ledger
with exactly one matching installation and one prefix-matched
path-modification record; the resulting ledger holds zero installations
and zero path-modification records. -/
theorem undoInstallation_cleanup_spec_witness :
    "/tmp/nd" ∉ ([] : List String) ∧
    ([] : List Installation) = [] ∧
    (some { Method := "shell_rc", Value := "/tmp/nd/bin" } : Option PathModification)
      = some { Method := "shell_rc", Value := "/tmp/nd/bin" } ∧
    ([] : List PathModification) = [] ∧
    ([] : List EnvModification) = [] ∧
    ([] : List EnvModification) = [] :=
  undoInstallation_cleanup_spec singleInstFS ⟨[], []⟩ singleInstState
    { Version := "1.0.0", Installations := [], PathModifications := [], EnvModifications := [] }
    "node" "22.14.0"
    { PathMod := some { Method := "shell_rc", Value := "/tmp/nd/bin" },
      EnvMods := [], Previous := none }
    { Runtime := "node", Version := "22.14.0", Path := "/tmp/nd", Action := "install" }
    rfl (by decide) rfl

/-- Auxiliary: splitting a slash-free group followed by a separator. -/
theorem splitSlash_noSlash_append (g ys : List Char) (hg : '/' ∉ g) :
    splitSlash (g ++ '/' :: ys) = g :: splitSlash ys := by
  induction g with
  | nil => simp [splitSlash]
  | cons c g' ih =>
    have hc : c ≠ '/' := fun h => hg (h ▸ List.mem_cons_self c g')
    have hg' : '/' ∉ g' := fun h => hg (List.mem_cons_of_mem c h)
    calc splitSlash ((c :: g') ++ '/' :: ys)
        = consHead c (splitSlash (g' ++ '/' :: ys)) := by simp [splitSlash, hc]
      _ = consHead c (g' :: splitSlash ys) := by rw [ih hg']
      _ = (c :: g') :: splitSlash ys := rfl

/-- Auxiliary: a slash-free group splits to itself. -/
theorem splitSlash_noSlash (g : List Char) (hg : '/' ∉ g) : splitSlash g = [g] := by
  induction g with
  | nil => rfl
  | cons c g' ih =>
    have hc : c ≠ '/' := fun h => hg (h ▸ List.mem_cons_self c g')
    have hg' : '/' ∉ g' := fun h => hg (List.mem_cons_of_mem c h)
    calc splitSlash (c :: g')
        = consHead c (splitSlash g') := by simp [splitSlash, hc]
      _ = consHead c [g'] := by rw [ih hg']
      _ = [c :: g'] := rfl

/-- Auxiliary: joining after appending one group. -/
theorem interSlash_append_last (gs : List (List Char)) (g : List Char) (h : gs ≠ []) :
    interSlash (gs ++ [g]) = interSlash gs ++ '/' :: g := by
  induction gs with
  | nil => exact absurd rfl h
  | cons g0 rest ih =>
    cases rest with
    | nil => simp [interSlash]
    | cons g1 rest' =>
      calc interSlash ((g0 :: g1 :: rest') ++ [g])
          = g0 ++ '/' :: interSlash ((g1 :: rest') ++ [g]) := rfl
        _ = g0 ++ '/' :: (interSlash (g1 :: rest') ++ '/' :: g) := by rw [ih (by simp)]
        _ = interSlash (g0 :: g1 :: rest') ++ '/' :: g := by
            show _ = (g0 ++ '/' :: interSlash (g1 :: rest')) ++ '/' :: g
            simp

/-- Auxiliary: splitting a joined list of slash-free groups followed by a
separator and a remainder. -/
theorem splitSlash_interSlash_append (gs : List (List Char)) (ys : List Char)
    (h : gs ≠ []) (hall : ∀ g ∈ gs, '/' ∉ g) :
    splitSlash (interSlash gs ++ '/' :: ys) = gs ++ splitSlash ys := by
  induction gs with
  | nil => exact absurd rfl h
  | cons g0 rest ih =>
    cases rest with
    | nil =>
      simpa [interSlash] using
        splitSlash_noSlash_append g0 ys (hall g0 (List.mem_cons_self g0 []))
    | cons g1 rest' =>
      have hg0 : '/' ∉ g0 := hall g0 (List.mem_cons_self g0 (g1 :: rest'))
      have hall' : ∀ g ∈ g1 :: rest', '/' ∉ g := fun g hg => hall g (List.mem_cons_of_mem g0 hg)
      calc splitSlash (interSlash (g0 :: g1 :: rest') ++ '/' :: ys)
          = splitSlash (g0 ++ '/' :: (interSlash (g1 :: rest') ++ '/' :: ys)) := by
            simp [interSlash]
        _ = g0 :: splitSlash (interSlash (g1 :: rest') ++ '/' :: ys) :=
            splitSlash_noSlash_append g0 _ hg0
        _ = g0 :: ((g1 :: rest') ++ splitSlash ys) := by rw [ih (by simp) hall']
        _ = (g0 :: g1 :: rest') ++ splitSlash ys := rfl

/-- Auxiliary: splitting inverts joining on slash-free groups. -/
theorem splitSlash_interSlash (gs : List (List Char)) (h : gs ≠ [])
    (hall : ∀ g ∈ gs, '/' ∉ g) : splitSlash (interSlash gs) = gs := by
  induction gs with
  | nil => exact absurd rfl h
  | cons g0 rest ih =>
    cases rest with
    | nil => simpa [interSlash] using splitSlash_noSlash g0 (hall g0 (List.mem_cons_self g0 []))
    | cons g1 rest' =>
      have hg0 : '/' ∉ g0 := hall g0 (List.mem_cons_self g0 (g1 :: rest'))
      have hall' : ∀ g ∈ g1 :: rest', '/' ∉ g := fun g hg => hall g (List.mem_cons_of_mem g0 hg)
      calc splitSlash (interSlash (g0 :: g1 :: rest'))
          = splitSlash (g0 ++ '/' :: interSlash (g1 :: rest')) := by simp [interSlash]
        _ = g0 :: splitSlash (interSlash (g1 :: rest')) := splitSlash_noSlash_append g0 _ hg0
        _ = g0 :: g1 :: rest' := by rw [ih (by simp) hall']

/-- Auxiliary: `cleanStep` only pushes on plain components, so the fold
reverses them onto the accumulator. -/
theorem foldl_cleanStep_plain (rooted : Bool) (gs acc : List (List Char))
    (h : ∀ g ∈ gs, g ≠ [] ∧ g ≠ ['.'] ∧ g ≠ ['.', '.']) :
    gs.foldl (cleanStep rooted) acc = gs.reverse ++ acc := by
  induction gs generalizing acc with
  | nil => rfl
  | cons g0 rest ih =>
    have hg0 := h g0 (List.mem_cons_self g0 rest)
    have hstep : cleanStep rooted acc g0 = g0 :: acc := by
      unfold cleanStep
      rw [if_neg (by simp [hg0.1, hg0.2.1]), if_neg hg0.2.2]
    rw [List.foldl_cons, hstep, ih (g0 :: acc) (fun g hg => h g (List.mem_cons_of_mem g0 hg))]
    simp

/-- Auxiliary: character-level consequences of `plainComp`. -/
theorem plainComp_data (c : String) (h : plainComp c = true) :
    c.data ≠ [] ∧ c.data ≠ ['.'] ∧ c.data ≠ ['.', '.'] ∧ '/' ∉ c.data := by
  simp only [plainComp, Bool.and_eq_true, decide_eq_true_eq, Bool.not_eq_true'] at h
  obtain ⟨⟨⟨h1, h2⟩, h3⟩, h4⟩ := h
  refine ⟨?_, ?_, ?_, ?_⟩
  · exact fun hd => h1 (String.ext (hd.trans rfl))
  · exact fun hd => h2 (String.ext (hd.trans rfl))
  · exact fun hd => h3 (String.ext (hd.trans rfl))
  · intro hm
    have := List.elem_eq_true_of_mem hm
    rw [show c.data.contains '/' = List.elem '/' c.data from rfl, this] at h4
    exact Bool.true_eq_false.mp h4

/-- Auxiliary: the slash-freeness of the data of plain components. -/
theorem plain_map_noSlash (cs : List String) (hall : ∀ c ∈ cs, plainComp c = true) :
    ∀ g ∈ cs.map String.data, '/' ∉ g := by
  intro g hg
  obtain ⟨c, hc, rfl⟩ := List.mem_map.mp hg
  exact (plainComp_data c (hall c hc)).2.2.2

/-- Auxiliary: the non-navigation shape of the data of plain components. -/
theorem plain_map_shape (cs : List String) (hall : ∀ c ∈ cs, plainComp c = true) :
    ∀ g ∈ cs.map String.data, g ≠ [] ∧ g ≠ ['.'] ∧ g ≠ ['.', '.'] := by
  intro g hg
  obtain ⟨c, hc, rfl⟩ := List.mem_map.mp hg
  exact ⟨(plainComp_data c (hall c hc)).1, (plainComp_data c (hall c hc)).2.1,
    (plainComp_data c (hall c hc)).2.2.1⟩

/-- Auxiliary: an absolute path of components is non-empty. -/
theorem absPathS_ne_empty (cs : List String) : absPathS cs ≠ "" := by
  intro hh
  have hd : (absPathS cs).data = [] := by rw [hh]
  simp [absPathS] at hd

/-- Auxiliary: an absolute path of components is rooted. -/
theorem absPathS_rooted (cs : List String) : strHasPref (absPathS cs) "/" = true := by
  show List.isPrefixOf ("/" : String).data ('/' :: interSlash (cs.map String.data)) = true
  rw [show ("/" : String).data = ['/'] from rfl]
  simp [List.isPrefixOf]

/-- Auxiliary: splitting an absolute path of plain components. -/
theorem splitSlash_absPathS (cs : List String) (h : cs ≠ [])
    (hall : ∀ c ∈ cs, plainComp c = true) :
    splitSlash (absPathS cs).data = [] :: cs.map String.data := by
  show splitSlash ('/' :: interSlash (cs.map String.data)) = _
  have : splitSlash ('/' :: interSlash (cs.map String.data))
      = [] :: splitSlash (interSlash (cs.map String.data)) := by simp [splitSlash]
  rw [this, splitSlash_interSlash _ (by simpa using h) (plain_map_noSlash cs hall)]

/-- Auxiliary: `filepath.Clean` fixes an absolute path of plain
components. -/
theorem clean_absPathS (cs : List String) (h : cs ≠ [])
    (hall : ∀ c ∈ cs, plainComp c = true) :
    goFilepathClean (absPathS cs) = absPathS cs := by
  unfold goFilepathClean
  rw [if_neg (absPathS_ne_empty cs), absPathS_rooted cs]
  have hcore : cleanCore true (absPathS cs).data = (absPathS cs).data := by
    unfold cleanCore
    rw [splitSlash_absPathS cs h hall, List.foldl_cons,
      show cleanStep true [] [] = [] from rfl,
      foldl_cleanStep_plain true _ [] (plain_map_shape cs hall), List.append_nil,
      List.reverse_reverse]
    rfl
  rw [hcore, if_neg (by simp [absPathS])]

/-- Auxiliary: `filepath.Join` of an absolute base of plain components
with two further plain components. -/
theorem join_absPathS (cs : List String) (key v : String) (h : cs ≠ [])
    (hall : ∀ c ∈ cs, plainComp c = true)
    (hk : plainComp key = true) (hv : plainComp v = true) :
    goFilepathJoin [absPathS cs, key, v] = absPathS (cs ++ [key, v]) := by
  unfold goFilepathJoin
  rw [if_neg (absPathS_ne_empty cs)]
  have hdata : interSlash [(absPathS cs).data, key.data, v.data]
      = (absPathS (cs ++ [key, v])).data := by
    have h1 : interSlash [(absPathS cs).data, key.data, v.data]
        = (absPathS cs).data ++ '/' :: (key.data ++ '/' :: v.data) := rfl
    have h2 : (absPathS (cs ++ [key, v])).data
        = '/' :: interSlash ((cs.map String.data ++ [key.data]) ++ [v.data]) := by
      show ('/' :: interSlash ((cs ++ [key, v]).map String.data)) = _
      simp
    rw [h1, h2, interSlash_append_last _ _ (by simp),
      interSlash_append_last _ _ (by simpa using h)]
    show ('/' :: interSlash (cs.map String.data)) ++ _ = _
    simp
  simp only [List.map_cons, List.map_nil]
  rw [hdata]
  have hmk : (⟨(absPathS (cs ++ [key, v])).data⟩ : String) = absPathS (cs ++ [key, v]) := rfl
  rw [hmk]
  exact clean_absPathS (cs ++ [key, v]) (by simp)
    (by
      intro c hc
      rcases List.mem_append.mp hc with hc1 | hc2
      · exact hall c hc1
      · simp only [List.mem_cons, List.not_mem_nil, or_false] at hc2
        rcases hc2 with rfl | rfl
        · exact hk
        · exact hv)

/-- Auxiliary: character data of an absolute path ending in one more
component. -/
theorem absPathS_data_snoc (pre : List String) (u : String) (hpre : pre ≠ []) :
    (absPathS (pre ++ [u])).data
      = '/' :: (interSlash (pre.map String.data) ++ '/' :: u.data) := by
  show '/' :: interSlash ((pre ++ [u]).map String.data) = _
  rw [List.map_append, List.map_singleton, interSlash_append_last _ _ (by simpa using hpre)]

/-- Auxiliary: the same with a trailing suffix pushed inside. -/
theorem absPathS_data_snoc_append (pre : List String) (u : String) (extra : List Char)
    (hpre : pre ≠ []) :
    (absPathS (pre ++ [u])).data ++ extra
      = '/' :: (interSlash (pre.map String.data) ++ '/' :: (u.data ++ extra)) := by
  rw [absPathS_data_snoc pre u hpre]
  simp

/-- Auxiliary: cancel a common component-list head on both sides of a
prefix relation. -/
theorem pref_cancel_mid {I a b : List Char} (h : I ++ '/' :: a <+: I ++ '/' :: b) :
    a <+: b := by
  rw [show I ++ '/' :: a = (I ++ ['/']) ++ a by simp,
    show I ++ '/' :: b = (I ++ ['/']) ++ b by simp,
    List.prefix_append_right_inj] at h
  exact h

/-- Auxiliary: two slash-free groups closed by a separator and related by
a prefix must be equal. -/
theorem noSlash_sep_eq {x y xs ys : List Char} (hx : '/' ∉ x) (hy : '/' ∉ y)
    (h : x ++ '/' :: xs <+: y ++ '/' :: ys) : x = y := by
  induction x generalizing y with
  | nil =>
    cases y with
    | nil => rfl
    | cons d y' =>
      exfalso
      rw [List.nil_append, List.cons_append, List.cons_prefix_cons] at h
      apply hy
      rw [← h.1]
      exact List.mem_cons_self _ _
  | cons c x' ih =>
    cases y with
    | nil =>
      exfalso
      rw [List.cons_append, List.nil_append, List.cons_prefix_cons] at h
      apply hx
      rw [h.1]
      exact List.mem_cons_self _ _
    | cons d y' =>
      rw [List.cons_append, List.cons_append, List.cons_prefix_cons] at h
      have hx' : '/' ∉ x' := fun hm => hx (List.mem_cons_of_mem c hm)
      have hy' : '/' ∉ y' := fun hm => hy (List.mem_cons_of_mem d hm)
      rw [h.1, ih hx' hy' h.2]

/-- Auxiliary: the last component of an absolute path determines it. -/
theorem absPathS_inj_last (pre : List String) (u w : String) (hpre : pre ≠ [])
    (heq : absPathS (pre ++ [u]) = absPathS (pre ++ [w])) : u = w := by
  have hd := congrArg String.data heq
  rw [absPathS_data_snoc pre u hpre, absPathS_data_snoc pre w hpre] at hd
  injection hd with _ hd2
  have hd3 := List.append_cancel_left hd2
  injection hd3 with _ hd4
  exact String.ext hd4

/-- Auxiliary: `underEq` in terms of character data. -/
theorem underEq_true_iff {p q : String} :
    underEq p q = true ↔ q = p ∨ (p.data ++ ['/']) <+: q.data := by
  unfold underEq strHasPref
  rw [Bool.or_eq_true, beq_iff_eq, List.isPrefixOf_iff_prefix, String.data_append,
    show ("/" : String).data = ['/'] from rfl]

/-- Auxiliary: the subtree relation is transitive. -/
theorem underEq_trans {a b q : String} (h1 : underEq a b = true) (h2 : underEq b q = true) :
    underEq a q = true := by
  rw [underEq_true_iff] at h1 h2 ⊢
  rcases h1 with rfl | h1
  · exact h2
  · rcases h2 with rfl | h2
    · right; exact h1
    · right
      exact h1.trans ((List.prefix_append b.data ['/']).trans h2)

/-- Auxiliary: distinct slash-free last components give disjoint
subtrees (including the directories themselves). -/
theorem subtree_disjoint (pre : List String) (u w : String) (hpre : pre ≠ [])
    (hu : '/' ∉ u.data) (hw : '/' ∉ w.data) (hne : u ≠ w) (q : String)
    (hq : underEq (absPathS (pre ++ [u])) q = true) :
    underEq (absPathS (pre ++ [w])) q = false := by
  rw [underEq_true_iff] at hq
  rw [Bool.eq_false_iff, Ne, underEq_true_iff]
  rcases hq with rfl | hq
  · rintro (heq | hpref)
    · exact hne (absPathS_inj_last pre u w hpre heq)
    · rw [absPathS_data_snoc_append pre w ['/'] hpre, absPathS_data_snoc pre u hpre,
        List.cons_prefix_cons] at hpref
      have h3 := pref_cancel_mid hpref.2
      exact hu (List.IsPrefix.mem (by simp) h3)
  · obtain ⟨t, ht⟩ := hq
    have hqd : q.data
        = '/' :: (interSlash (pre.map String.data) ++ '/' :: (u.data ++ '/' :: t)) := by
      rw [← ht, List.append_assoc, List.singleton_append,
        ← absPathS_data_snoc_append pre u ('/' :: t) hpre]
    rintro (heq | hpref)
    · have hwd := congrArg String.data heq
      rw [hqd, absPathS_data_snoc pre w hpre] at hwd
      injection hwd with _ hwd2
      have hwd3 := List.append_cancel_left hwd2
      injection hwd3 with _ hwd4
      exact hw (hwd4 ▸ (by simp : '/' ∈ u.data ++ '/' :: t))
    · rw [hqd, absPathS_data_snoc_append pre w ['/'] hpre, List.cons_prefix_cons] at hpref
      have h3 := pref_cancel_mid hpref.2
      have h4 : w.data ++ '/' :: ([] : List Char) <+: u.data ++ '/' :: t := by
        simpa using h3
      exact hne (String.ext (noSlash_sep_eq hw hu h4)).symm

/-- Auxiliary: membership after `os.RemoveAll`. -/
theorem mem_removeAllFS {fs : List String} {p q : String} :
    q ∈ removeAllFS fs p ↔ q ∈ fs ∧ underEq p q = false := by
  simp [removeAllFS, List.mem_filter]

/-- Auxiliary: `os.Rename` does not move a path outside the source
subtree. -/
theorem rebase_of_not_under {src dst q : String} (h : underEq src q = false) :
    rebase src dst q = q := by
  have h' : (q == src) = false ∧ strHasPref q (src ++ "/") = false := by
    simpa [underEq] using h
  unfold rebase
  rw [if_neg (by simp [h'.1] : ¬((q == src) = true)),
    if_neg (by simp [h'.2] : ¬(strHasPref q (src ++ "/") = true))]

/-- Auxiliary: a path produced by `os.Rename` is either untouched or
lies in the destination subtree. -/
theorem rebase_target {src dst q p : String} (h : rebase src dst p = q) :
    q = p ∨ underEq dst q = true := by
  unfold rebase at h
  by_cases hps : (p == src) = true
  · rw [if_pos hps] at h
    right
    rw [← h]
    exact underEq_self dst
  · rw [if_neg hps] at h
    by_cases hpp : strHasPref p (src ++ "/") = true
    · rw [if_pos hpp] at h
      right
      rw [underEq_true_iff]
      right
      have hpref : (src ++ "/").data <+: p.data := by
        rw [← List.isPrefixOf_iff_prefix]
        exact hpp
      obtain ⟨tl, htl⟩ := hpref
      have hdrop : p.data.drop src.data.length = '/' :: tl := by
        rw [← htl, String.data_append, show ("/" : String).data = ['/'] from rfl,
          List.append_assoc, List.singleton_append, List.drop_left]
      rw [← h]
      show dst.data ++ ['/'] <+: (String.mk (dst.data ++ p.data.drop src.data.length)).data
      rw [show (String.mk (dst.data ++ p.data.drop src.data.length)).data
          = dst.data ++ p.data.drop src.data.length from rfl, hdrop]
      exact ⟨tl, by simp⟩
    · rw [if_neg hpp] at h
      exact Or.inl h.symm

/-- Auxiliary: membership through `os.Rename` for a path outside both
the source and destination subtrees. -/
theorem mem_renameFS {fs : List String} {src dst q : String}
    (hsrc : underEq src q = false) (hdst : underEq dst q = false) :
    q ∈ renameFS fs src dst ↔ q ∈ fs := by
  unfold renameFS
  constructor
  · intro hm
    obtain ⟨p, hp, hpe⟩ := List.mem_map.mp hm
    rcases rebase_target hpe with heq | hun
    · exact heq ▸ hp
    · rw [hun] at hdst
      exact absurd hdst (by simp)
  · intro hm
    exact List.mem_map.mpr ⟨q, hm, rebase_of_not_under hsrc⟩

/-- Auxiliary: a directory built by appending a component stays inside
the base directory's subtree. -/
theorem underEq_append_comp (base d : String) :
    underEq base (base ++ "/" ++ d) = true := by
  rw [underEq_true_iff]
  right
  rw [String.data_append, String.data_append, show ("/" : String).data = ['/'] from rfl]
  exact List.prefix_append _ _

/-- Auxiliary: `ExtractAndFlatten` leaves every path outside the temp
directory's and the target directory's subtrees untouched. -/
theorem extractAndFlattenFS_frame (fs payload : List String) (tmpDir targetDir q : String)
    (single : Option String)
    (htq : underEq tmpDir q = false) (hdq : underEq targetDir q = false) :
    q ∈ extractAndFlattenFS fs tmpDir targetDir payload single ↔ q ∈ fs := by
  have hnot : q ∉ tmpDir :: payload.map (fun p => tmpDir ++ "/" ++ p) := by
    intro hmem
    rcases List.mem_cons.mp hmem with rfl | hmem2
    · rw [underEq_self] at htq
      exact Bool.true_eq_false.mp htq
    · obtain ⟨p, hp, hpq⟩ := List.mem_map.mp hmem2
      have hund := underEq_append_comp tmpDir p
      rw [hpq, htq] at hund
      exact Bool.false_eq_true.mp hund
  have h1 : q ∈ fs ++ tmpDir :: payload.map (fun p => tmpDir ++ "/" ++ p) ↔ q ∈ fs := by
    rw [List.mem_append]
    exact or_iff_left hnot
  have hsrc : ∀ srcDir : String, underEq tmpDir srcDir = true → underEq srcDir q = false := by
    intro srcDir hs
    cases hcq : underEq srcDir q with
    | false => rfl
    | true =>
      rw [underEq_trans hs hcq] at htq
      exact absurd htq (by simp)
  cases single with
  | none =>
    unfold extractAndFlattenFS
    rw [mem_removeAllFS, mem_renameFS (hsrc tmpDir (underEq_self tmpDir)) hdq,
      mem_removeAllFS]
    simp [htq, hdq, h1]
  | some d =>
    unfold extractAndFlattenFS
    rw [mem_removeAllFS,
      mem_renameFS (hsrc (tmpDir ++ "/" ++ d) (underEq_append_comp tmpDir d)) hdq,
      mem_removeAllFS]
    simp [htq, hdq, h1]

/-- C9: `ExecutePlan` installs each runtime into the runtimes base
directory joined with the runtime key and the resolved exact version, so
for plain version components, distinct resolved versions yield distinct
target directories, and an install of one version (modelled by
`ExtractAndFlatten`'s filesystem effect, with its temp directory a fresh
entry next to the target) leaves every path in another version's
directory subtree untouched. -/
theorem execPlan_distinct_version_dirs
    (bcs : List String) (key v1 v2 t q : String) (fs payload : List String)
    (single : Option String)
    (hb : bcs ≠ []) (hbp : ∀ c ∈ bcs, plainComp c = true)
    (hkey : plainComp key = true) (h1 : plainComp v1 = true) (h2 : plainComp v2 = true)
    (ht : plainComp t = true) (hne : v1 ≠ v2) (htne : t ≠ v2)
    (hq : underEq (execTargetDir (absPathS bcs) key v2) q = true) :
    execTargetDir (absPathS bcs) key v1 ≠ execTargetDir (absPathS bcs) key v2 ∧
    (q ∈ extractAndFlattenFS fs (absPathS (bcs ++ [key, t]))
        (execTargetDir (absPathS bcs) key v1) payload single ↔ q ∈ fs) := by
  have hj1 : execTargetDir (absPathS bcs) key v1 = absPathS (bcs ++ [key, v1]) :=
    join_absPathS bcs key v1 hb hbp hkey h1
  have hj2 : execTargetDir (absPathS bcs) key v2 = absPathS (bcs ++ [key, v2]) :=
    join_absPathS bcs key v2 hb hbp hkey h2
  have hpre : bcs ++ [key] ≠ [] := by simp
  have hassoc1 : bcs ++ [key, v1] = (bcs ++ [key]) ++ [v1] := by simp
  have hassoc2 : bcs ++ [key, v2] = (bcs ++ [key]) ++ [v2] := by simp
  have hassoct : bcs ++ [key, t] = (bcs ++ [key]) ++ [t] := by simp
  have hu1 : '/' ∉ v1.data := (plainComp_data v1 h1).2.2.2
  have hu2 : '/' ∉ v2.data := (plainComp_data v2 h2).2.2.2
  have hut : '/' ∉ t.data := (plainComp_data t ht).2.2.2
  have hq' : underEq (absPathS ((bcs ++ [key]) ++ [v2])) q = true := by
    rw [← hassoc2]
    rw [hj2] at hq
    exact hq
  have hd1q : underEq (absPathS ((bcs ++ [key]) ++ [v1])) q = false :=
    subtree_disjoint (bcs ++ [key]) v2 v1 hpre hu2 hu1 (Ne.symm hne) q hq'
  have hdtq : underEq (absPathS ((bcs ++ [key]) ++ [t])) q = false :=
    subtree_disjoint (bcs ++ [key]) v2 t hpre hu2 hut (Ne.symm htne) q hq'
  constructor
  · intro heq
    rw [hj1, hj2, hassoc1, hassoc2] at heq
    exact hne (absPathS_inj_last (bcs ++ [key]) v1 v2 hpre heq)
  · have htq : underEq (absPathS (bcs ++ [key, t])) q = false := by
      rw [hassoct]
      exact hdtq
    have hdq : underEq (execTargetDir (absPathS bcs) key v1) q = false := by
      rw [hj1, hassoc1]
      exact hd1q
    exact extractAndFlattenFS_frame fs payload _ _ q single htq hdq

/-- Closed instance of `execPlan_distinct_version_dirs` at the Node
runtime with two concrete versions. -/
theorem execPlan_distinct_version_dirs_witness :
    execTargetDir (absPathS ["rt"]) "node" "22.14.0"
      ≠ execTargetDir (absPathS ["rt"]) "node" "20.11.0" ∧
    ("/rt/node/20.11.0/bin" ∈ extractAndFlattenFS
        ["/rt/node/20.11.0", "/rt/node/20.11.0/bin"]
        (absPathS (["rt"] ++ ["node", "extract-1"]))
        (execTargetDir (absPathS ["rt"]) "node" "22.14.0") ["bin"] none
      ↔ "/rt/node/20.11.0/bin" ∈ ["/rt/node/20.11.0", "/rt/node/20.11.0/bin"]) :=
  execPlan_distinct_version_dirs ["rt"] "node" "22.14.0" "20.11.0" "extract-1"
    "/rt/node/20.11.0/bin" ["/rt/node/20.11.0", "/rt/node/20.11.0/bin"] ["bin"] none
    (by decide) (by decide) (by decide) (by decide) (by decide) (by decide)
    (by decide) (by decide) (by decide)

end Templatr
